import Mathlib

/-!
Verification of the git-aggregation subsystem of the standup CLI
(`gitUtils.ts`, together with the `getConfig` accessor of `config.ts` and the
data model of `types.ts`).

Strings are modelled by Lean `String` (JavaScript string operations are
re-implemented over the character list `String.data`); `Date` values are
carried as their raw source strings or as integer instants, since no claim
depends on date arithmetic.  Subprocess interaction (`Bun.spawn`) is modelled
by an outcome value (`ProcOutcome`) supplied by the environment, and the
per-repository results of `getCommitsSince` / `getUnpushedCommits` are supplied
to `aggregateCommits` as oracle functions, mirroring the awaited results of the
corresponding asynchronous calls.  Thrown JavaScript exceptions are modelled
with `Except`/`Option`.
-/

/-- Character class of JavaScript whitespace (the regex class `\s`, also used
by `String.prototype.trim`). -/
def jsWhitespace (c : Char) : Bool :=
  let n := c.toNat
  n = 32 || n = 9 || n = 10 || n = 13 || n = 11 || n = 12 || n = 160 ||
  n = 5760 || (8192 ≤ n && n ≤ 8202) || n = 8232 || n = 8233 || n = 8239 ||
  n = 8287 || n = 12288 || n = 65279

/-- JavaScript `String.prototype.trim`: remove leading and trailing `\s`
characters. -/
def jsTrim (s : String) : String :=
  String.mk (((s.data.dropWhile jsWhitespace).reverse.dropWhile jsWhitespace).reverse)

/-- JavaScript `String.prototype.split` with a one-character separator:
split at every occurrence of the separator; the empty string yields `[""]`. -/
def splitChar (sep : Char) : List Char → List (List Char)
  | [] => [[]]
  | c :: rest =>
    if c = sep then [] :: splitChar sep rest
    else
      match splitChar sep rest with
      | [] => [[c]]
      | p :: ps => (c :: p) :: ps

/-- JavaScript `Array.prototype.join` with a one-character separator. -/
def joinChar (sep : Char) : List (List Char) → List Char
  | [] => []
  | [p] => p
  | p :: ps => p ++ sep :: joinChar sep ps

/-- Number of occurrences of a separator character in a character list. -/
def countSep (sep : Char) (l : List Char) : Nat :=
  l.countP (· = sep)

/-- The text remaining after skipping past the first `n` occurrences of the
separator (the whole list for `n = 0`; empty if fewer than `n` occurrences). -/
def dropPastSep (sep : Char) : Nat → List Char → List Char
  | 0, l => l
  | _ + 1, [] => []
  | n + 1, c :: rest =>
    if c = sep then dropPastSep sep n rest else dropPastSep sep (n + 1) rest

/-- JavaScript `String.prototype.startsWith`. -/
def strStartsWith (s pre : String) : Bool :=
  pre.data.isPrefixOf s.data

/-- JavaScript `String.prototype.replace` with a plain-string pattern:
replace only the first occurrence, or return the input unchanged when the
pattern does not occur (helper on character lists). -/
def replaceFirstAux (pat repl : List Char) : List Char → List Char
  | [] => []
  | c :: rest =>
    if pat.isPrefixOf (c :: rest) then repl ++ (c :: rest).drop pat.length
    else c :: replaceFirstAux pat repl rest

/-- JavaScript `String.prototype.replace` with a plain-string pattern. -/
def replaceFirst (s pat repl : String) : String :=
  String.mk (replaceFirstAux pat.data repl.data s.data)

/-- Characters matched by the regex metacharacter `.` (anything but a line
terminator). -/
def jsDot (c : Char) : Bool :=
  !(c = '\n' || c = '\r' || c.toNat = 8232 || c.toNat = 8233)

/-- Semantics of `ref.match(/HEAD -> (.+)/)`: the capture of the leftmost
match, i.e. the text following the first occurrence of `"HEAD -> "` that is
followed by at least one non-line-terminator character. -/
def headMatchTarget : List Char → Option (List Char)
  | [] => none
  | c :: rest =>
    if "HEAD -> ".data.isPrefixOf (c :: rest) &&
        !(((c :: rest).drop 8).takeWhile jsDot).isEmpty then
      some (((c :: rest).drop 8).takeWhile jsDot)
    else headMatchTarget rest

/-- Tokenisation step of `extractBranchName` (gitUtils.ts lines 176-179):
remove all parentheses, trim, split on commas, trim each token. -/
def cleanedRefs (refNames : String) : String :=
  jsTrim (String.mk (refNames.data.filter fun c => c ≠ '(' && c ≠ ')'))

/-- Token list of `extractBranchName` for a non-degenerate input. -/
def refTokens (refNames : String) : List String :=
  ((splitChar ',' (cleanedRefs refNames).data).map String.mk).map jsTrim

/-- First loop of `extractBranchName`: look for a `"HEAD -> branchname"`
pattern. -/
def findHeadRefLoop : List String → Option String
  | [] => none
  | r :: rest =>
    match headMatchTarget r.data with
    | some t => some (String.mk t)
    | none => findHeadRefLoop rest

/-- Second loop of `extractBranchName`: take the first non-origin, non-tag
ref. -/
def findLocalRefLoop : List String → Option String
  | [] => none
  | r :: rest =>
    if !(strStartsWith r "origin/") && !(strStartsWith r "tag:") then some r
    else findLocalRefLoop rest

/-- Third loop of `extractBranchName`: fall back to the first origin ref,
with `replace('origin/', '')` applied. -/
def findOriginRefLoop : List String → Option String
  | [] => none
  | r :: rest =>
    if strStartsWith r "origin/" then some (replaceFirst r "origin/" "")
    else findOriginRefLoop rest

/-- Embedding of `extractBranchName` (gitUtils.ts lines 172-204); the
sequential early-return structure of the three loops is expressed with
`Option.orElse`. -/
def extractBranchName (refNames : String) : Option String :=
  if refNames = "" then none
  else
    let cleaned := cleanedRefs refNames
    if cleaned = "" then none
    else
      let refs := ((splitChar ',' cleaned.data).map String.mk).map jsTrim
      (findHeadRefLoop refs).orElse fun _ =>
        (findLocalRefLoop refs).orElse fun _ =>
          findOriginRefLoop refs

/-- Statement of the spec's six-step branch-extraction algorithm on an
already-tokenised ref list, written with the standard searching combinators:
first any `HEAD -> X` capture, else the first token that is neither
origin-prefixed nor tag-marked, else the first origin-prefixed token with the
prefix stripped, else nothing. -/
def branchFromTokens (refs : List String) : Option String :=
  (refs.findSome? fun r => (headMatchTarget r.data).map String.mk).orElse fun _ =>
    (refs.find? fun r => !(strStartsWith r "origin/") && !(strStartsWith r "tag:")).orElse fun _ =>
      (refs.find? fun r => strStartsWith r "origin/").map fun r => String.mk (r.data.drop 7)

/-- Data model of one commit (types.ts lines 3-12).  The `Date` field
`timestamp` is carried as the raw ISO string it is constructed from. -/
structure Commit where
  hash : String
  author : String
  timestamp : String
  message : String
  refNames : String
  isUnpushed : Bool
  repoName : String
  branch : Option String
deriving DecidableEq, Repr, Inhabited

/-- Data model of a per-repository commit group (types.ts lines 14-19). -/
structure CommitGroup where
  repoName : String
  commits : List Commit
  pushedCount : Nat
  unpushedCount : Nat
deriving DecidableEq, Repr, Inhabited

/-- Time range of an aggregation run (types.ts lines 23-26); instants are
modelled as integers. -/
structure TimeRange where
  since : Int
  untilTime : Int
deriving DecidableEq, Repr, Inhabited

/-- Data model of an aggregation result (types.ts lines 21-28). -/
structure GitAggregationResult where
  groups : List CommitGroup
  timeRange : TimeRange
  totalCommits : Nat
deriving DecidableEq, Repr, Inhabited

/-- Embedding of `getRepositoryName` (gitUtils.ts lines 162-164), i.e. Node's
`path.basename`: skip trailing separators, then take the last path segment. -/
def getRepositoryName (repoPath : String) : String :=
  if repoPath = "" then ""
  else
    let r := repoPath.data.reverse.dropWhile (· = '/')
    if r.isEmpty then "/" else String.mk ((r.takeWhile (· ≠ '/')).reverse)

/-- Parsing of one line of git-log output inside `getCommitsSince`
(gitUtils.ts lines 288-301): destructure on `'|'` into hash, timestamp,
author, refNames and the remaining message parts (re-joined with `'|'`).
A line with fewer than four delimiters leaves `refNames` undefined and the
`refNames.trim()` call throws, modelled by `none`. -/
def parseCommitLine (repoName line : String) : Option Commit :=
  match (splitChar '|' line.data).map String.mk with
  | hash :: timestamp :: author :: refNames :: messageParts =>
    let message := String.mk (joinChar '|' (messageParts.map String.data))
    let branch := extractBranchName (jsTrim refNames)
    some
      { hash := hash
        author := author
        timestamp := timestamp
        message := jsTrim message
        refNames := jsTrim refNames
        isUnpushed := false
        repoName := repoName
        branch := branch.bind fun b => if b = "" then none else some b }
  | _ => none

/-- Outcome of one subprocess invocation, as observed by the calling code:
the spawn call threw, the process was killed by the watchdog timeout (its
exit code is then not `0`), or it exited with an exit code and its captured
standard output. -/
inductive ProcOutcome where
  | spawnError
  | killedByTimeout (captured : String)
  | exited (exitCode : Int) (stdout : String)
deriving DecidableEq, Repr

/-- The commit-collecting loop of `getCommitsSince` (gitUtils.ts lines
285-302): skip falsy lines; a line whose parse throws aborts the loop and the
surrounding catch returns the commits accumulated so far. -/
def gitLogParseLoop (repoName : String) : List String → List Commit → List Commit
  | [], acc => acc
  | line :: rest, acc =>
    if line = "" then gitLogParseLoop repoName rest acc
    else
      match parseCommitLine repoName line with
      | none => acc
      | some c => gitLogParseLoop repoName rest (acc ++ [c])

/-- Embedding of `getCommitsSince` (gitUtils.ts lines 209-308) as a function
of the git-log subprocess outcome: a spawn error is caught and yields the
commits accumulated so far (none), a killed or non-zero-exit process yields
`[]`, empty trimmed output yields `[]`, and otherwise the output lines are
parsed. -/
def getCommitsSince (repoPath : String) (outcome : ProcOutcome) : List Commit :=
  let repoName := getRepositoryName repoPath
  match outcome with
  | .spawnError => []
  | .killedByTimeout _ => []
  | .exited exitCode stdout =>
    if exitCode ≠ 0 then []
    else if jsTrim stdout = "" then []
    else
      gitLogParseLoop repoName
        ((splitChar '\n' (jsTrim stdout).data).map String.mk) []

/-- Locale-aware string comparison `a.localeCompare(b) ≤ 0` of the sort in
`aggregateCommits`, modelled as code-point lexicographic order (helper on
character lists). -/
def listLeb : List Char → List Char → Bool
  | [], _ => true
  | _ :: _, [] => false
  | c :: cs, d :: ds => if c = d then listLeb cs ds else c.toNat < d.toNat

/-- Locale-aware string comparison of the group sort, modelled as code-point
lexicographic order on strings. -/
def strLe (a b : String) : Bool :=
  listLeb a.data b.data

/-- Comparator `(a, b) => a.repoName.localeCompare(b.repoName)` of the group
sort (gitUtils.ts line 415). -/
def groupLe (a b : CommitGroup) : Prop :=
  strLe a.repoName b.repoName = true

instance : DecidableRel groupLe := fun a b => by
  unfold groupLe
  infer_instance

/-- Construction of one `CommitGroup` in the aggregation loop (gitUtils.ts
lines 400-408): the pushed and unpushed counts partition the commit list on
`isUnpushed`. -/
def mkCommitGroup (repoName : String) (commits : List Commit) : CommitGroup :=
  { repoName := repoName
    commits := commits
    pushedCount := (commits.filter fun c => !c.isUnpushed).length
    unpushedCount := (commits.filter fun c => c.isUnpushed).length }

/-- Per-repository branch of `aggregateCommits` (gitUtils.ts lines 379-392),
the join of `getCommitsSince` and `getUnpushedCommits` whose awaited results
are supplied by the oracles `fetch` and `unpushed` (the latter giving the
membership list of the unpushed-hash set): every fetched commit's
`isUnpushed` flag is overwritten with the set-membership test of its hash,
and the repository short name is attached.  This is the embedding of
`aggregateCommits` (gitUtils.ts lines 370-422) together with the definition
below; `since` and `now` are the cutoff instant and the run instant, and the
group sort is JavaScript's stable comparator sort, modelled by insertion
sort. -/
def aggregateRepoResult (fetch : String → List Commit)
    (unpushed : String → List String) (repoPath : String) :
    String × List Commit :=
  (getRepositoryName repoPath,
   (fetch repoPath).map fun c =>
     { c with isUnpushed := (unpushed repoPath).contains c.hash })

/-- Body of `aggregateCommits` after the per-repository join: filter out
repositories with no commits, build the groups, accumulate the total and
sort by repository name. -/
def aggregateCommits (repoPaths : List String) (since now : Int)
    (fetch : String → List Commit) (unpushed : String → List String) :
    GitAggregationResult :=
  let results := repoPaths.map (aggregateRepoResult fetch unpushed)
  let kept := results.filter fun r => 0 < r.2.length
  { groups := List.insertionSort groupLe (kept.map fun r => mkCommitGroup r.1 r.2)
    timeRange := { since := since, untilTime := now }
    totalCommits := (kept.map fun r => r.2.length).sum }

/-- Branch tag decoration shared by the formatters: `[branch] ` when the
commit's branch is truthy (present and non-empty), else nothing. -/
def branchTagOf (c : Commit) : String :=
  match c.branch with
  | some b => if b = "" then "" else "[" ++ b ++ "] "
  | none => ""

/-- Header line of one group in `formatCommitsGrouped` (gitUtils.ts lines
431-433). -/
def groupHeaderLine (g : CommitGroup) : String :=
  "**" ++ g.repoName ++ "** (" ++ toString g.commits.length ++ " commits" ++
    (if 0 < g.unpushedCount then " (" ++ toString g.unpushedCount ++ " unpushed)" else "") ++ ")"

/-- Per-commit line of `formatCommitsGrouped` (gitUtils.ts lines 437-440). -/
def groupCommitLine (c : Commit) : String :=
  "- " ++ (if c.isUnpushed then "🚀" else "✅") ++ " " ++ branchTagOf c ++
    c.message ++ (if c.isUnpushed then " *unpushed*" else "")

/-- Embedding of `formatCommitsGrouped` (gitUtils.ts lines 427-447) with its
push-loop structure: per group the code pushes the header line, a blank line,
one line per commit and a final blank line. -/
def formatCommitsGrouped (groups : List CommitGroup) : List String :=
  groups.foldl
    (fun lines group =>
      (group.commits.foldl (fun a c => a ++ [groupCommitLine c])
        (lines ++ [groupHeaderLine group, ""])) ++ [""])
    []

/-- Conventional-commit keywords of the accomplishment-stripping regex
`/^(feat|fix|docs|style|refactor|test|chore|perf):\s*` + `/i` (gitUtils.ts line 476). -/
def convPrefixes : List String :=
  ["feat", "fix", "docs", "style", "refactor", "test", "chore", "perf"]

/-- ASCII case folding used by the case-insensitive regex flag on these
all-ASCII keywords. -/
def asciiLower (c : Char) : Char :=
  if 'A' ≤ c && c ≤ 'Z' then Char.ofNat (c.toNat + 32) else c

/-- Test that one keyword alternative of the stripping regex matches at the
start of the message: the keyword (case-insensitively) followed by a colon. -/
def matchesConvPrefix (kw m : String) : Bool :=
  ((m.data.take kw.length).map asciiLower == kw.data) &&
    (m.data.drop kw.length).take 1 == [':']

/-- Semantics of `message.replace(/^(feat|...|perf):\s*` + `/i, '')`: when an
alternative matches, drop the keyword, the colon and the following run of
whitespace; otherwise return the message unchanged. -/
def stripConventionalPrefix (m : String) : String :=
  match convPrefixes.find? fun kw => matchesConvPrefix kw m with
  | some kw => String.mk ((m.data.drop (kw.length + 1)).dropWhile jsWhitespace)
  | none => m

/-- Unpushed marker of the accomplishment format (gitUtils.ts line 478). -/
def accUnpushedMark (c : Commit) : String :=
  if c.isUnpushed then " (unpushed)" else ""

/-- Embedding of `commitsToAccomplishments` (gitUtils.ts lines 469-485) with
its nested push-loop structure. -/
def commitsToAccomplishments (groups : List CommitGroup) : List String :=
  groups.foldl
    (fun acc group =>
      group.commits.foldl
        (fun a commit =>
          a ++ ["[" ++ group.repoName ++ "] " ++ branchTagOf commit ++
            stripConventionalPrefix commit.message ++ accUnpushedMark commit])
        acc)
    []

/-- Configuration record (config.ts `StandupConfig`), restricted to the
fields the discovery and fetch code reads. -/
structure StandupConfig where
  gitScanPath : String
  authorFilter : Option String
  excludeRepos : Option (List String)
  skipMergeCommits : Option Bool
deriving DecidableEq, Repr

/-- Embedding of `getConfig` (config.ts lines 206-211): the module-global
`cachedConfig` is passed explicitly, and the function throws when it is
still null. -/
def getConfig (cachedConfig : Option StandupConfig) : Except String StandupConfig :=
  match cachedConfig with
  | none => Except.error "Config not loaded. Call loadConfig() first."
  | some c => Except.ok c

/-- Embedding of `findGitRepositories` (gitUtils.ts lines 110-157) as a
function of the `find` subprocess outcome.  `getConfig()` is called before
the try block, so its exception propagates; inside the try block every
failure yields `[]`.  On success the `.git` paths are filtered for truthiness,
mapped through `replace('/.git', '')` and filtered by the exclusion list. -/
def findGitRepositories (cachedConfig : Option StandupConfig)
    (scanPath : Option String) (outcomeAt : String → ProcOutcome) :
    Except String (List String) :=
  match getConfig cachedConfig with
  | Except.error e => Except.error e
  | Except.ok config =>
    Except.ok
      (match outcomeAt (scanPath.getD config.gitScanPath) with
      | .spawnError => []
      | .killedByTimeout _ => []
      | .exited exitCode stdout =>
        if exitCode ≠ 0 then []
        else
          let repos :=
            (((splitChar '\n' (jsTrim stdout).data).map String.mk).filter
              fun line => line ≠ "").map fun gitDir => replaceFirst gitDir "/.git" ""
          match config.excludeRepos with
          | some ex =>
            if 0 < ex.length then
              repos.filter fun repoPath => !(ex.contains (getRepositoryName repoPath))
            else repos
          | none => repos)

/-- Concrete commit used by counterexamples and scenario checks. -/
def mkSampleCommit (h msg : String) : Commit :=
  { hash := h
    author := "dev"
    timestamp := "2026-01-01T00:00:00+00:00"
    message := msg
    refNames := ""
    isUnpushed := false
    repoName := ""
    branch := none }

/-- Fetch oracle of the spec's aggregation scenario: repository `A` yields
two commits, repository `B` yields none. -/
def scenarioFetch : String → List Commit := fun p =>
  if p = "A" then [mkSampleCommit "h1" "feat: add login", mkSampleCommit "h2" "fix: bug"] else []

/-- Unpushed-set oracle of the spec's aggregation scenario: in repository
`A` exactly `h1` is unpushed. -/
def scenarioUnpushed : String → List String := fun p =>
  if p = "A" then ["h1"] else []

theorem findHeadRefLoop_eq_findSome (refs : List String) :
    findHeadRefLoop refs = refs.findSome? fun r => (headMatchTarget r.data).map String.mk := by
  induction refs with
  | nil => rfl
  | cons r rest ih =>
    simp only [findHeadRefLoop, List.findSome?_cons]
    cases h : headMatchTarget r.data <;> simp [h, ih]

theorem findLocalRefLoop_eq_find (refs : List String) :
    findLocalRefLoop refs =
      refs.find? fun r => !(strStartsWith r "origin/") && !(strStartsWith r "tag:") := by
  induction refs with
  | nil => rfl
  | cons r rest ih =>
    simp only [findLocalRefLoop]
    by_cases h : (!(strStartsWith r "origin/") && !(strStartsWith r "tag:")) = true
    · rw [if_pos h]
      exact (List.find?_cons_of_pos
        (p := fun s => !(strStartsWith s "origin/") && !(strStartsWith s "tag:")) _ h).symm
    · rw [if_neg h, ih]
      exact (List.find?_cons_of_neg
        (p := fun s => !(strStartsWith s "origin/") && !(strStartsWith s "tag:")) _
        (by simpa using h)).symm

theorem replaceFirst_origin_eq_drop (r : String) (h : strStartsWith r "origin/" = true) :
    replaceFirst r "origin/" "" = String.mk (r.data.drop 7) := by
  unfold strStartsWith at h
  unfold replaceFirst
  cases hd : r.data with
  | nil =>
    rw [hd] at h
    exact absurd h (by decide)
  | cons c rest =>
    rw [hd] at h
    simp only [replaceFirstAux, h, if_pos, String.data]
    rw [show ("origin/".data).length = 7 from rfl]
    simp

theorem findOriginRefLoop_eq_find (refs : List String) :
    findOriginRefLoop refs =
      (refs.find? fun r => strStartsWith r "origin/").map
        fun r => String.mk (r.data.drop 7) := by
  induction refs with
  | nil => rfl
  | cons r rest ih =>
    simp only [findOriginRefLoop]
    by_cases h : strStartsWith r "origin/" = true
    · rw [if_pos h, replaceFirst_origin_eq_drop r h,
        List.find?_cons_of_pos (p := fun s => strStartsWith s "origin/") _ h]
      rfl
    · rw [if_neg h, ih,
        List.find?_cons_of_neg (p := fun s => strStartsWith s "origin/") _ (by simpa using h)]

/-- C2: extractBranchName is a pure function satisfying the spec's five test
vectors, and in general follows the six-step algorithm: empty or
parenthesis-only input gives no branch, a token matching `HEAD -> X` gives
`X`, else the first token neither origin-prefixed nor tag-marked, else the
first origin-prefixed token with the prefix stripped, else no branch (the
step sequence stated by `branchFromTokens`). -/
theorem claim_C2_extractBranchName :
    (extractBranchName "(HEAD -> main, origin/main)" = some "main" ∧
     extractBranchName "(feature-x)" = some "feature-x" ∧
     extractBranchName "" = none ∧
     extractBranchName "(origin/main)" = some "main" ∧
     extractBranchName "(tag: v1.0, origin/main)" = some "main") ∧
    (∀ s : String, cleanedRefs s = "" → extractBranchName s = none) ∧
    (∀ s : String, s ≠ "" → cleanedRefs s ≠ "" →
      extractBranchName s = branchFromTokens (refTokens s)) := by
  refine ⟨by decide, ?_, ?_⟩
  · intro s h
    unfold extractBranchName
    by_cases hs : s = ""
    · rw [if_pos hs]
    · rw [if_neg hs, if_pos h]
  · intro s hs hc
    unfold extractBranchName branchFromTokens refTokens
    rw [if_neg hs, if_neg hc]
    simp only [findHeadRefLoop_eq_findSome, findLocalRefLoop_eq_find,
      findOriginRefLoop_eq_find]

theorem claim_C2_witness :
    extractBranchName "()" = none ∧
    extractBranchName "feature" = branchFromTokens (refTokens "feature") :=
  ⟨claim_C2_extractBranchName.2.1 "()" (by decide),
   claim_C2_extractBranchName.2.2 "feature" (by decide) (by decide)⟩

/-- C9: getCommitsSince returns the empty commit list on each enumerated
failure — spawn error, process killed for exceeding the timeout, or a
non-zero exit code — rather than raising (the embedding is a total function,
every throwing path of the source being absorbed by its catch block). -/
theorem claim_C9_getCommitsSince_soft_fail :
    (∀ repoPath : String, getCommitsSince repoPath ProcOutcome.spawnError = []) ∧
    (∀ (repoPath captured : String),
      getCommitsSince repoPath (ProcOutcome.killedByTimeout captured) = []) ∧
    (∀ (repoPath : String) (exitCode : Int) (stdout : String), exitCode ≠ 0 →
      getCommitsSince repoPath (ProcOutcome.exited exitCode stdout) = []) := by
  refine ⟨fun _ => rfl, fun _ _ => rfl, fun repoPath exitCode stdout h => ?_⟩
  simp [getCommitsSince, h]

theorem claim_C9_witness :
    getCommitsSince "/r" (ProcOutcome.exited 1 "a|b|c|d|e") = [] :=
  claim_C9_getCommitsSince_soft_fail.2.2 "/r" 1 "a|b|c|d|e" (by decide)

/-- C10 counterexample: invoking findGitRepositories before the
configuration has been loaded raises the `getConfig` exception instead of
returning an empty list, because `getConfig()` is called outside the
function's try block. -/
theorem claim_C10_counterexample :
    findGitRepositories none none (fun _ => ProcOutcome.exited 0 "") =
      Except.error "Config not loaded. Call loadConfig() first." := rfl

/-- C10 (amended): once the configuration is loaded, findGitRepositories
never raises — it always returns a repository list, and every discovery
failure (spawn error, killed process, non-zero exit code) yields the empty
list; invoked before loadConfig it throws the `getConfig` contract error. -/
theorem claim_C10_findGitRepositories_amended
    (config : StandupConfig) (scanPath : Option String)
    (outcomeAt : String → ProcOutcome) :
    (∃ repos, findGitRepositories (some config) scanPath outcomeAt = Except.ok repos) ∧
    (outcomeAt (scanPath.getD config.gitScanPath) = ProcOutcome.spawnError →
      findGitRepositories (some config) scanPath outcomeAt = Except.ok []) ∧
    (∀ captured, outcomeAt (scanPath.getD config.gitScanPath) =
        ProcOutcome.killedByTimeout captured →
      findGitRepositories (some config) scanPath outcomeAt = Except.ok []) ∧
    (∀ exitCode stdout, exitCode ≠ 0 →
      outcomeAt (scanPath.getD config.gitScanPath) = ProcOutcome.exited exitCode stdout →
      findGitRepositories (some config) scanPath outcomeAt = Except.ok []) := by
  refine ⟨?_, ?_, ?_, ?_⟩
  · simp only [findGitRepositories, getConfig]
    exact ⟨_, rfl⟩
  · intro hres
    simp [findGitRepositories, getConfig, hres]
  · intro captured hres
    simp [findGitRepositories, getConfig, hres]
  · intro exitCode stdout hne hres
    simp [findGitRepositories, getConfig, hres, hne]

theorem claim_C10_witness :
    findGitRepositories (some (StandupConfig.mk "/home" none none none)) none
      (fun _ => ProcOutcome.exited 2 "x") = Except.ok [] :=
  (claim_C10_findGitRepositories_amended _ none _).2.2.2 2 "x" (by decide) rfl

theorem char_toNat_injective {c d : Char} (h : c.toNat = d.toNat) : c = d := by
  have hv : c.val = d.val := UInt32.ext h
  cases c
  cases d
  simp_all

theorem listLeb_total : ∀ x y : List Char, listLeb x y = true ∨ listLeb y x = true := by
  intro x
  induction x with
  | nil => intro y; exact Or.inl rfl
  | cons c cs ih =>
    intro y
    cases y with
    | nil => exact Or.inr rfl
    | cons d ds =>
      by_cases hcd : c = d
      · subst hcd
        simpa [listLeb] using ih ds
      · have hne : c.toNat ≠ d.toNat := fun h => hcd (char_toNat_injective h)
        rcases Nat.lt_or_ge c.toNat d.toNat with h | h
        · exact Or.inl (by simp [listLeb, hcd, h])
        · have h' : d.toNat < c.toNat := Nat.lt_of_le_of_ne h fun hh => hne hh.symm
          have hdc : ¬(d = c) := fun hh => hcd hh.symm
          exact Or.inr (by simp [listLeb, hdc, h'])

theorem listLeb_trans :
    ∀ x y z : List Char, listLeb x y = true → listLeb y z = true → listLeb x z = true := by
  intro x
  induction x with
  | nil => intro y z _ _; rfl
  | cons c cs ih =>
    intro y z hxy hyz
    cases y with
    | nil => simp [listLeb] at hxy
    | cons d ds =>
      cases z with
      | nil => simp [listLeb] at hyz
      | cons e es =>
        by_cases hcd : c = d
        · subst hcd
          simp only [listLeb, if_pos rfl] at hxy
          by_cases hce : c = e
          · subst hce
            simp only [listLeb, if_pos rfl] at hyz ⊢
            exact ih ds es hxy hyz
          · simp only [listLeb, if_neg hce] at hyz ⊢
            exact hyz
        · simp only [listLeb, if_neg hcd] at hxy
          have hcd' : c.toNat < d.toNat := by simpa using hxy
          by_cases hde : d = e
          · subst hde
            simp only [listLeb, if_neg hcd]
            simpa using hcd'
          · simp only [listLeb, if_neg hde] at hyz
            have hde' : d.toNat < e.toNat := by simpa using hyz
            have hce' : c.toNat < e.toNat := Nat.lt_trans hcd' hde'
            have hce : ¬(c = e) := fun h => by
              subst h
              exact absurd hce' (Nat.lt_irrefl _)
            simp only [listLeb, if_neg hce]
            simpa using hce'

theorem sum_lengths_insertionSort (gs : List CommitGroup) :
    ((List.insertionSort groupLe gs).map fun g => g.commits.length).sum =
      (gs.map fun g => g.commits.length).sum :=
  ((List.perm_insertionSort groupLe gs).map fun g => g.commits.length).sum_eq

/-- C1: in every aggregation result, totalCommits equals the sum of the
group sizes, and in every group the pushed and unpushed counts sum to the
group's commit count. -/
theorem claim_C1_aggregation_counts (repoPaths : List String) (since now : Int)
    (fetch : String → List Commit) (unpushed : String → List String) :
    (aggregateCommits repoPaths since now fetch unpushed).totalCommits =
      ((aggregateCommits repoPaths since now fetch unpushed).groups.map
        fun g => g.commits.length).sum ∧
    ∀ g ∈ (aggregateCommits repoPaths since now fetch unpushed).groups,
      g.pushedCount + g.unpushedCount = g.commits.length := by
  constructor
  · simp only [aggregateCommits]
    rw [sum_lengths_insertionSort]
    simp [List.map_map, mkCommitGroup, Function.comp_def]
  · intro g hg
    simp only [aggregateCommits, List.mem_insertionSort] at hg
    obtain ⟨r, hr, rfl⟩ := List.mem_map.mp hg
    simp only [mkCommitGroup]
    rw [Nat.add_comm]
    exact (List.length_eq_length_filter_add (l := r.2) fun c => c.isUnpushed).symm

theorem claim_C1_witness :
    (aggregateCommits ["A", "B"] 0 1 scenarioFetch scenarioUnpushed).totalCommits =
      ((aggregateCommits ["A", "B"] 0 1 scenarioFetch scenarioUnpushed).groups.map
        fun g => g.commits.length).sum ∧
    ((aggregateCommits ["A", "B"] 0 1 scenarioFetch scenarioUnpushed).groups.headD
        default).pushedCount +
      ((aggregateCommits ["A", "B"] 0 1 scenarioFetch scenarioUnpushed).groups.headD
        default).unpushedCount =
      ((aggregateCommits ["A", "B"] 0 1 scenarioFetch scenarioUnpushed).groups.headD
        default).commits.length :=
  ⟨(claim_C1_aggregation_counts ["A", "B"] 0 1 scenarioFetch scenarioUnpushed).1,
   (claim_C1_aggregation_counts ["A", "B"] 0 1 scenarioFetch scenarioUnpushed).2 _
     (by decide)⟩

/-- C4: every commit in every group of an aggregation result carries an
explicitly set isUnpushed flag equal to the membership test of its hash in
the unpushed set of the repository the group was built from. -/
theorem claim_C4_isUnpushed_marking (repoPaths : List String) (since now : Int)
    (fetch : String → List Commit) (unpushed : String → List String) :
    ∀ g ∈ (aggregateCommits repoPaths since now fetch unpushed).groups,
      ∃ p ∈ repoPaths, g.repoName = getRepositoryName p ∧
        ∀ c ∈ g.commits, c.isUnpushed = (unpushed p).contains c.hash := by
  intro g hg
  simp only [aggregateCommits, List.mem_insertionSort] at hg
  obtain ⟨r, hr, rfl⟩ := List.mem_map.mp hg
  have hr' := List.mem_of_mem_filter hr
  obtain ⟨p, hp, rfl⟩ := List.mem_map.mp hr'
  refine ⟨p, hp, rfl, ?_⟩
  intro c hc
  simp only [mkCommitGroup, aggregateRepoResult] at hc
  obtain ⟨c0, hc0, rfl⟩ := List.mem_map.mp hc
  rfl

theorem claim_C4_witness :
    ∃ p ∈ ["A", "B"],
      ((aggregateCommits ["A", "B"] 0 1 scenarioFetch scenarioUnpushed).groups.headD
          default).repoName = getRepositoryName p ∧
      ∀ c ∈ ((aggregateCommits ["A", "B"] 0 1 scenarioFetch
          scenarioUnpushed).groups.headD default).commits,
        c.isUnpushed = (scenarioUnpushed p).contains c.hash :=
  claim_C4_isUnpushed_marking ["A", "B"] 0 1 scenarioFetch scenarioUnpushed _ (by decide)

/-- C5 counterexample: two distinct repository paths with the same final
path segment produce two groups with the same repoName, so the
distinct-names half of the claim fails. -/
theorem claim_C5_counterexample :
    ("/a/proj" : String) ≠ "/b/proj" ∧
    ((aggregateCommits ["/a/proj", "/b/proj"] 0 1 (fun _ => [mkSampleCommit "h" "m"])
      (fun _ => [])).groups.map fun g => g.repoName) = ["proj", "proj"] ∧
    ¬ ((aggregateCommits ["/a/proj", "/b/proj"] 0 1 (fun _ => [mkSampleCommit "h" "m"])
      (fun _ => [])).groups.map fun g => g.repoName).Nodup := by
  exact ⟨by decide, by decide, by decide⟩

/-- C5 (amended): the groups of every aggregation result are sorted
ascending by repository name; the group names are moreover pairwise
distinct whenever the final path segments of the input repository paths are
pairwise distinct (two distinct paths sharing a final segment can produce
duplicate names). -/
theorem claim_C5_sorted_names (repoPaths : List String) (since now : Int)
    (fetch : String → List Commit) (unpushed : String → List String) :
    List.Sorted groupLe (aggregateCommits repoPaths since now fetch unpushed).groups ∧
    ((repoPaths.map getRepositoryName).Nodup →
      ((aggregateCommits repoPaths since now fetch unpushed).groups.map
        fun g => g.repoName).Nodup) := by
  constructor
  · haveI : IsTotal CommitGroup groupLe := ⟨fun a b => by
      unfold groupLe strLe
      exact listLeb_total a.repoName.data b.repoName.data⟩
    haveI : IsTrans CommitGroup groupLe := ⟨fun a b c hab hbc =>
      listLeb_trans a.repoName.data b.repoName.data c.repoName.data hab hbc⟩
    simp only [aggregateCommits]
    exact List.sorted_insertionSort groupLe _
  · intro hnd
    simp only [aggregateCommits]
    have hperm :=
      (List.perm_insertionSort groupLe
        (((repoPaths.map (aggregateRepoResult fetch unpushed)).filter
          fun r => 0 < r.2.length).map fun r => mkCommitGroup r.1 r.2)).map
        fun g => g.repoName
    refine hperm.nodup_iff.mpr ?_
    have hsub :=
      (List.filter_sublist (p := fun r => 0 < r.2.length)
        (repoPaths.map (aggregateRepoResult fetch unpushed))).map fun r => r.1
    have hnames :
        ((repoPaths.map (aggregateRepoResult fetch unpushed)).map fun r => r.1) =
          repoPaths.map getRepositoryName := by
      simp [List.map_map, Function.comp_def, aggregateRepoResult]
    rw [hnames] at hsub
    have hkept := hnd.sublist hsub
    simpa [List.map_map, Function.comp_def, mkCommitGroup] using hkept

theorem claim_C5_witness :
    List.Sorted groupLe
      (aggregateCommits ["A", "B"] 0 1 scenarioFetch scenarioUnpushed).groups ∧
    ((aggregateCommits ["A", "B"] 0 1 scenarioFetch scenarioUnpushed).groups.map
      fun g => g.repoName).Nodup :=
  ⟨(claim_C5_sorted_names ["A", "B"] 0 1 scenarioFetch scenarioUnpushed).1,
   (claim_C5_sorted_names ["A", "B"] 0 1 scenarioFetch scenarioUnpushed).2 (by decide)⟩

/-- C6: repositories contributing zero commits never appear in the groups of
an aggregation result, and the spec's concrete scenario — repository A with
two commits of which exactly h1 is unpushed, repository B with none — yields
exactly one group, for A, with both commits, pushedCount 1, unpushedCount 1
and totalCommits 2. -/
theorem claim_C6_zero_commit_repos_dropped :
    (∀ (repoPaths : List String) (since now : Int) (fetch : String → List Commit)
        (unpushed : String → List String),
      ∀ g ∈ (aggregateCommits repoPaths since now fetch unpushed).groups,
        0 < g.commits.length) ∧
    ((aggregateCommits ["A", "B"] 0 1 scenarioFetch scenarioUnpushed).groups.map
        fun g => g.repoName) = ["A"] ∧
    ((aggregateCommits ["A", "B"] 0 1 scenarioFetch scenarioUnpushed).groups.map
        fun g => g.commits.map fun c => c.hash) = [["h1", "h2"]] ∧
    ((aggregateCommits ["A", "B"] 0 1 scenarioFetch scenarioUnpushed).groups.map
        fun g => g.commits.map fun c => c.isUnpushed) = [[true, false]] ∧
    ((aggregateCommits ["A", "B"] 0 1 scenarioFetch scenarioUnpushed).groups.map
        fun g => g.pushedCount) = [1] ∧
    ((aggregateCommits ["A", "B"] 0 1 scenarioFetch scenarioUnpushed).groups.map
        fun g => g.unpushedCount) = [1] ∧
    (aggregateCommits ["A", "B"] 0 1 scenarioFetch scenarioUnpushed).totalCommits = 2 := by
  refine ⟨?_, by decide, by decide, by decide, by decide, by decide, by decide⟩
  intro repoPaths since now fetch unpushed g hg
  simp only [aggregateCommits, List.mem_insertionSort] at hg
  obtain ⟨r, hr, rfl⟩ := List.mem_map.mp hg
  have hpos := List.of_mem_filter hr
  simpa [mkCommitGroup] using hpos

theorem claim_C6_witness :
    0 < ((aggregateCommits ["A", "B"] 0 1 scenarioFetch scenarioUnpushed).groups.headD
      default).commits.length :=
  claim_C6_zero_commit_repos_dropped.1 ["A", "B"] 0 1 scenarioFetch scenarioUnpushed _
    (by decide)

theorem foldl_append_singleton {α β : Type} (f : α → β) :
    ∀ (l : List α) (acc : List β),
      l.foldl (fun a x => a ++ [f x]) acc = acc ++ l.map f := by
  intro l
  induction l with
  | nil => intro acc; simp
  | cons x xs ih => intro acc; simp [ih]

theorem foldl_append_blocks {α β : Type} (g : α → List β) :
    ∀ (l : List α) (acc : List β),
      l.foldl (fun a x => a ++ g x) acc = acc ++ l.flatMap g := by
  intro l
  induction l with
  | nil => intro acc; simp
  | cons x xs ih => intro acc; simp [ih]

/-- C7: commitsToAccomplishments decorates each commit with the bracketed
repository tag, the optional branch tag and the unpushed marker around the
stripped message; the stripping removes exactly one leading
conventional-commit prefix (a keyword, case-insensitively, followed by a
colon and any run of whitespace) when one matches, and leaves every other
message unchanged. -/
theorem claim_C7_accomplishment_stripping :
    (∀ groups : List CommitGroup,
      commitsToAccomplishments groups = groups.flatMap fun g =>
        g.commits.map fun c =>
          "[" ++ g.repoName ++ "] " ++ branchTagOf c ++
            stripConventionalPrefix c.message ++ accUnpushedMark c) ∧
    (∀ m : String, (∀ kw ∈ convPrefixes, matchesConvPrefix kw m = false) →
      stripConventionalPrefix m = m) ∧
    (∀ m : String, (∃ kw ∈ convPrefixes, matchesConvPrefix kw m = true) →
      ∃ kw ∈ convPrefixes, matchesConvPrefix kw m = true ∧
        stripConventionalPrefix m =
          String.mk ((m.data.drop (kw.length + 1)).dropWhile jsWhitespace)) := by
  refine ⟨?_, ?_, ?_⟩
  · intro groups
    unfold commitsToAccomplishments
    simp only [foldl_append_singleton, foldl_append_blocks]
    simp
  · intro m h
    unfold stripConventionalPrefix
    rw [List.find?_eq_none.mpr fun kw hkw => by simp [h kw hkw]]
  · intro m h
    have hsome : (convPrefixes.find? fun kw => matchesConvPrefix kw m).isSome :=
      List.find?_isSome.mpr (by simpa using h)
    obtain ⟨kw, hfind⟩ := Option.isSome_iff_exists.mp hsome
    refine ⟨kw, List.mem_of_find?_eq_some (p := fun kw => matchesConvPrefix kw m) hfind,
      List.find?_some (p := fun kw => matchesConvPrefix kw m) hfind, ?_⟩
    unfold stripConventionalPrefix
    rw [hfind]

theorem claim_C7_witness :
    stripConventionalPrefix "hello world" = "hello world" ∧
    (∃ kw ∈ convPrefixes, matchesConvPrefix kw "feat: add login" = true ∧
      stripConventionalPrefix "feat: add login" =
        String.mk (("feat: add login".data.drop (kw.length + 1)).dropWhile jsWhitespace)) :=
  ⟨claim_C7_accomplishment_stripping.2.1 "hello world" (by decide),
   claim_C7_accomplishment_stripping.2.2 "feat: add login" (by decide)⟩

/-- C8 counterexample: the grouped format emits an extra blank line directly
after each group header, so a group with one commit produces four lines, not
the three (header, commit line, blank separator) the claim allows. -/
theorem claim_C8_counterexample :
    formatCommitsGrouped [mkCommitGroup "A" [mkSampleCommit "h1" "msg"]] =
      ["**A** (1 commits)", "", "- ✅ msg", ""] ∧
    (formatCommitsGrouped [mkCommitGroup "A" [mkSampleCommit "h1" "msg"]]).length ≠
      1 + (mkCommitGroup "A" [mkSampleCommit "h1" "msg"]).commits.length + 1 := by
  exact ⟨by decide, by decide⟩

/-- C8 (amended): for every list of commit groups the grouped format
consists, per group in order, of one header line (repository name, commit
count, unpushed count omitted when zero), one blank line, one line per
commit (push-status marker, optional bracketed branch tag, message), and a
final blank separator line — with no other lines. -/
theorem claim_C8_grouped_format (groups : List CommitGroup) :
    formatCommitsGrouped groups = groups.flatMap fun g =>
      [groupHeaderLine g, ""] ++ g.commits.map groupCommitLine ++ [""] := by
  unfold formatCommitsGrouped
  simp only [foldl_append_singleton]
  have hbody : (fun (lines : List String) (group : CommitGroup) =>
      ((lines ++ [groupHeaderLine group, ""]) ++ group.commits.map groupCommitLine) ++ [""]) =
      fun (lines : List String) (group : CommitGroup) =>
        lines ++ ([groupHeaderLine group, ""] ++ group.commits.map groupCommitLine ++ [""]) := by
    funext lines group
    simp [List.append_assoc]
  rw [hbody, foldl_append_blocks]
  simp

theorem string_data_mk (p : List Char) : (String.mk p).data = p := rfl

theorem splitChar_ne_nil (sep : Char) (l : List Char) : splitChar sep l ≠ [] := by
  induction l with
  | nil => simp [splitChar]
  | cons c rest ih =>
    simp only [splitChar]
    by_cases h : c = sep
    · simp [h]
    · rw [if_neg h]
      cases hs : splitChar sep rest with
      | nil => simp
      | cons p ps => simp

theorem joinChar_splitChar (sep : Char) :
    ∀ l : List Char, joinChar sep (splitChar sep l) = l := by
  intro l
  induction l with
  | nil => rfl
  | cons c rest ih =>
    by_cases h : c = sep
    · subst h
      simp only [splitChar, if_pos rfl]
      cases hs : splitChar c rest with
      | nil => exact absurd hs (splitChar_ne_nil c rest)
      | cons p ps =>
        rw [hs] at ih
        simp only [joinChar, List.nil_append]
        rw [ih]
    · simp only [splitChar, if_neg h]
      cases hs : splitChar sep rest with
      | nil => exact absurd hs (splitChar_ne_nil sep rest)
      | cons p ps =>
        rw [hs] at ih
        cases ps with
        | nil =>
          simp only [joinChar] at ih ⊢
          rw [ih]
        | cons q qs =>
          simp only [joinChar] at ih ⊢
          rw [List.cons_append, ih]

theorem splitChar_step (sep : Char) :
    ∀ l : List Char, 0 < countSep sep l →
      splitChar sep l = (l.takeWhile (· ≠ sep)) :: splitChar sep (dropPastSep sep 1 l) := by
  intro l
  induction l with
  | nil => intro h; simp [countSep] at h
  | cons c rest ih =>
    intro h
    by_cases hc : c = sep
    · subst hc
      simp [splitChar, List.takeWhile, dropPastSep]
    · have hrest : 0 < countSep sep rest := by
        simpa [countSep, List.countP_cons, hc] using h
      simp only [splitChar, if_neg hc]
      rw [ih hrest]
      simp [List.takeWhile, hc, dropPastSep]

theorem countSep_dropPastSep_one (sep : Char) :
    ∀ l : List Char, 0 < countSep sep l →
      countSep sep (dropPastSep sep 1 l) + 1 = countSep sep l := by
  intro l
  induction l with
  | nil => intro h; simp [countSep] at h
  | cons c rest ih =>
    intro h
    by_cases hc : c = sep
    · subst hc
      simp [dropPastSep, countSep, List.countP_cons]
    · have hrest : 0 < countSep sep rest := by
        simpa [countSep, List.countP_cons, hc] using h
      simp only [dropPastSep, if_neg hc]
      rw [ih hrest]
      simp [countSep, List.countP_cons, hc]

theorem dropPastSep_succ (sep : Char) :
    ∀ (l : List Char) (n : Nat),
      dropPastSep sep 1 (dropPastSep sep n l) = dropPastSep sep (n + 1) l := by
  intro l
  induction l with
  | nil => intro n; cases n <;> simp [dropPastSep]
  | cons c rest ih =>
    intro n
    cases n with
    | zero => rfl
    | succ k =>
      by_cases hc : c = sep
      · simp only [dropPastSep, if_pos hc]
        exact ih k
      · simp only [dropPastSep, if_neg hc]
        exact ih (k + 1)

/-- C3: when parseCommitLine parses a commit-record line containing at least
four delimiters, only the first four pipe occurrences are significant: hash,
timestamp, author and refNames are the first four pipe-separated fields, and
the message is the entire text after the fourth pipe (embedded pipes
preserved, the remaining fields being rejoined with a pipe), then trimmed. -/
theorem claim_C3_message_keeps_pipes (repoName line : String)
    (h : 4 ≤ countSep '|' line.data) :
    ∃ c, parseCommitLine repoName line = some c ∧
      c.hash = String.mk (line.data.takeWhile (· ≠ '|')) ∧
      c.timestamp = String.mk ((dropPastSep '|' 1 line.data).takeWhile (· ≠ '|')) ∧
      c.author = String.mk ((dropPastSep '|' 2 line.data).takeWhile (· ≠ '|')) ∧
      c.refNames = jsTrim (String.mk ((dropPastSep '|' 3 line.data).takeWhile (· ≠ '|'))) ∧
      c.message = jsTrim (String.mk (dropPastSep '|' 4 line.data)) := by
  have h0 : 0 < countSep '|' line.data := by omega
  have s1 := splitChar_step '|' line.data h0
  have c1 := countSep_dropPastSep_one '|' line.data h0
  have h1 : 0 < countSep '|' (dropPastSep '|' 1 line.data) := by omega
  have s2 := splitChar_step '|' (dropPastSep '|' 1 line.data) h1
  have c2 := countSep_dropPastSep_one '|' (dropPastSep '|' 1 line.data) h1
  rw [dropPastSep_succ] at s2 c2
  simp only [Nat.reduceAdd] at s2 c2
  have h2 : 0 < countSep '|' (dropPastSep '|' 2 line.data) := by omega
  have s3 := splitChar_step '|' (dropPastSep '|' 2 line.data) h2
  have c3 := countSep_dropPastSep_one '|' (dropPastSep '|' 2 line.data) h2
  rw [dropPastSep_succ] at s3 c3
  simp only [Nat.reduceAdd] at s3 c3
  have h3 : 0 < countSep '|' (dropPastSep '|' 3 line.data) := by omega
  have s4 := splitChar_step '|' (dropPastSep '|' 3 line.data) h3
  rw [dropPastSep_succ] at s4
  simp only [Nat.reduceAdd] at s4
  unfold parseCommitLine
  rw [s1, s2, s3, s4]
  simp only [List.map_cons]
  refine ⟨_, rfl, rfl, rfl, rfl, rfl, ?_⟩
  simp only [List.map_map]
  have hid : ((splitChar '|' (dropPastSep '|' 4 line.data)).map
      (String.data ∘ String.mk)) = splitChar '|' (dropPastSep '|' 4 line.data) := by
    have : (String.data ∘ String.mk) = fun p : List Char => p := by
      funext p
      exact string_data_mk p
    rw [this]
    simp
  rw [hid, joinChar_splitChar]

theorem claim_C3_witness :
    ∃ c, parseCommitLine "repo" "h|t|a|refs|msg|more" = some c ∧
      c.hash = String.mk ("h|t|a|refs|msg|more".data.takeWhile (· ≠ '|')) ∧
      c.timestamp =
        String.mk ((dropPastSep '|' 1 "h|t|a|refs|msg|more".data).takeWhile (· ≠ '|')) ∧
      c.author =
        String.mk ((dropPastSep '|' 2 "h|t|a|refs|msg|more".data).takeWhile (· ≠ '|')) ∧
      c.refNames =
        jsTrim (String.mk ((dropPastSep '|' 3 "h|t|a|refs|msg|more".data).takeWhile (· ≠ '|'))) ∧
      c.message = jsTrim (String.mk (dropPastSep '|' 4 "h|t|a|refs|msg|more".data)) :=
  claim_C3_message_keeps_pipes "repo" "h|t|a|refs|msg|more" (by decide)

